import Mathlib

/-!
Verification of the scoring and ranking engine of the social-graph
recommendation service.

The repository's numeric core consists of:
* `app/embedding.py` — the feature projector `project_features_to_embedding`
  (present in the sources and embedded faithfully below);
* `app/recommendation.py` — the similarity metrics (`pearson_correlation`,
  inline cosine similarity), the candidate ranker and the recommendation
  orchestrators.  That module is exercised by `tests/test_recommendation.py`
  and `tests/test_pearson.py` but its file is not part of the staged sources,
  so those definitions are modelled from the specification's words (each such
  definition carries a doc comment starting with `Modelled from the spec:`).

Modelling conventions:
* Python float vectors are embedded as `List ℚ` (exact rational arithmetic);
  values produced by square roots (standard deviations, Euclidean norms,
  cosine denominators) live in `ℝ`.
* Fallible code (`raise ValueError`) is embedded as `Except String _`.
* Python's stable `sorted(..., reverse=True)` is embedded as
  `List.mergeSort` with a boolean "greater or equal score" comparator,
  which is a stable sort.
-/

/-- Sum of pairwise products of two rational vectors (the dot product of the
common prefix; `np.dot` on equal-length vectors). -/
def dotL (xs ys : List ℚ) : ℚ :=
  (List.zipWith (fun x y => x * y) xs ys).sum

/-- Arithmetic mean of a rational vector (`np.mean`); `0` on the empty list
because `Rat` division by zero is zero. -/
def meanL (xs : List ℚ) : ℚ :=
  xs.sum / (xs.length : ℚ)

/-- The vector recentred around its mean. -/
def centered (xs : List ℚ) : List ℚ :=
  xs.map (fun x => x - meanL xs)

/-- Sum of products of deviations from the means: the covariance of `xs` and
`ys` up to the sample normalisation factor `1/(n-1)`, which cancels between
the numerator and the denominator of the Pearson correlation coefficient. -/
def covSum (xs ys : List ℚ) : ℚ :=
  dotL (centered xs) (centered ys)

/-- Sum of squared deviations from the mean: the variance of `xs` up to the
same (cancelling) normalisation factor. -/
def varSum (xs : List ℚ) : ℚ :=
  covSum xs xs

theorem dotL_nil_left (ys : List ℚ) : dotL [] ys = 0 := rfl

theorem dotL_nil_right (xs : List ℚ) : dotL xs [] = 0 := by
  cases xs <;> rfl

theorem dotL_cons (x y : ℚ) (xs ys : List ℚ) :
    dotL (x :: xs) (y :: ys) = x * y + dotL xs ys := by
  simp [dotL]

theorem zipWith_mul_self (l : List ℚ) :
    List.zipWith (fun x y => x * y) l l = l.map (fun x => x * x) := by
  induction l with
  | nil => rfl
  | cons x xs ih => simp [ih]

theorem dotL_self_nonneg (xs : List ℚ) : 0 ≤ dotL xs xs := by
  rw [dotL, zipWith_mul_self]
  apply List.sum_nonneg
  intro x hx
  obtain ⟨y, _, rfl⟩ := List.mem_map.1 hx
  exact mul_self_nonneg y

theorem dotL_self_eq_zero_iff (xs : List ℚ) :
    dotL xs xs = 0 ↔ ∀ x ∈ xs, x = 0 := by
  induction xs with
  | nil => simp [dotL]
  | cons x xs ih =>
    rw [dotL_cons]
    constructor
    · intro h
      have hx : 0 ≤ x * x := mul_self_nonneg x
      have hs : 0 ≤ dotL xs xs := dotL_self_nonneg xs
      have hx0 : x * x = 0 := by linarith
      have hs0 : dotL xs xs = 0 := by linarith
      intro y hy
      rcases List.mem_cons.1 hy with rfl | hy
      · exact mul_self_eq_zero.1 hx0
      · exact (ih.1 hs0) y hy
    · intro h
      have hx : x = 0 := h x (List.mem_cons_self x xs)
      have hs : dotL xs xs = 0 := ih.2 (fun y hy => h y (List.mem_cons_of_mem x hy))
      simp [hx, hs]

theorem varSum_nonneg (xs : List ℚ) : 0 ≤ varSum xs :=
  dotL_self_nonneg (centered xs)

theorem varSum_eq_zero_iff (xs : List ℚ) :
    varSum xs = 0 ↔ ∀ x ∈ xs, x = meanL xs := by
  rw [varSum, covSum, dotL_self_eq_zero_iff]
  constructor
  · intro h x hx
    have := h (x - meanL xs) (List.mem_map.2 ⟨x, hx, rfl⟩)
    linarith
  · intro h y hy
    obtain ⟨x, hx, rfl⟩ := List.mem_map.1 hy
    have := h x hx
    linarith

theorem sum_of_const (xs : List ℚ) (c : ℚ) (h : ∀ x ∈ xs, x = c) :
    xs.sum = (xs.length : ℚ) * c := by
  induction xs with
  | nil => simp
  | cons x l ih =>
    have hx : x = c := h x (List.mem_cons_self x l)
    have hl := ih (fun y hy => h y (List.mem_cons_of_mem x hy))
    simp only [List.sum_cons, hl, hx, List.length_cons]
    push_cast
    ring

theorem meanL_const (xs : List ℚ) (c : ℚ) (hne : xs ≠ [])
    (h : ∀ x ∈ xs, x = c) : meanL xs = c := by
  have hlen : (xs.length : ℚ) ≠ 0 := by
    have : xs.length ≠ 0 := fun h0 => hne (List.length_eq_zero.1 h0)
    exact_mod_cast this
  rw [meanL, sum_of_const xs c h, mul_comm, mul_div_assoc, div_self hlen, mul_one]

theorem varSum_of_const (xs : List ℚ) (c : ℚ) (hne : xs ≠ [])
    (h : ∀ x ∈ xs, x = c) : varSum xs = 0 := by
  rw [varSum_eq_zero_iff]
  intro x hx
  rw [h x hx, meanL_const xs c hne h]

theorem varSum_pos_of_nonconst (xs : List ℚ)
    (h : ¬ ∃ c, ∀ x ∈ xs, x = c) : 0 < varSum xs := by
  rcases lt_or_eq_of_le (varSum_nonneg xs) with hlt | heq
  · exact hlt
  · exfalso
    exact h ⟨meanL xs, (varSum_eq_zero_iff xs).1 heq.symm⟩

theorem dotL_map_mul_right (k : ℚ) (xs ys : List ℚ) :
    dotL xs (ys.map (fun y => k * y)) = k * dotL xs ys := by
  induction xs generalizing ys with
  | nil => simp [dotL]
  | cons x xs ih =>
    cases ys with
    | nil => simp [dotL]
    | cons y ys =>
      simp only [List.map_cons, dotL_cons, ih]
      ring

theorem map_mul_ne_nil (k : ℚ) (xs : List ℚ) (h : xs ≠ []) :
    xs.map (fun x => k * x) ≠ [] := by
  simpa using h

theorem meanL_map_mul (k : ℚ) (xs : List ℚ) :
    meanL (xs.map (fun x => k * x)) = k * meanL xs := by
  have : (xs.map (fun x => k * x)).sum = k * xs.sum := by
    induction xs with
    | nil => simp
    | cons x l ih => simp [ih]; ring
  rw [meanL, meanL, this, List.length_map, mul_div_assoc]

theorem centered_map_mul (k : ℚ) (xs : List ℚ) :
    centered (xs.map (fun x => k * x)) = (centered xs).map (fun x => k * x) := by
  simp only [centered, meanL_map_mul, List.map_map]
  apply List.map_congr_left
  intro x _
  simp [Function.comp]
  ring

theorem covSum_map_mul_right (k : ℚ) (xs ys : List ℚ) :
    covSum xs (ys.map (fun y => k * y)) = k * covSum xs ys := by
  rw [covSum, covSum, centered_map_mul, dotL_map_mul_right]

theorem dotL_comm (xs ys : List ℚ) : dotL xs ys = dotL ys xs := by
  induction xs generalizing ys with
  | nil => simp [dotL_nil_left, dotL_nil_right]
  | cons x xs ih =>
    cases ys with
    | nil => simp [dotL_nil_left, dotL_nil_right]
    | cons y ys => simp only [dotL_cons, ih, mul_comm]

theorem covSum_comm (xs ys : List ℚ) : covSum xs ys = covSum ys xs := by
  rw [covSum, covSum, dotL_comm]

theorem varSum_map_mul (k : ℚ) (xs : List ℚ) :
    varSum (xs.map (fun x => k * x)) = k * (k * varSum xs) := by
  rw [varSum, covSum_map_mul_right, covSum_comm, covSum_map_mul_right, covSum_comm, varSum]

theorem dotL_eq_sum_range (xs ys : List ℚ) :
    dotL xs ys =
      ∑ i ∈ Finset.range (min xs.length ys.length), xs.getD i 0 * ys.getD i 0 := by
  induction xs generalizing ys with
  | nil => simp [dotL]
  | cons x xs ih =>
    cases ys with
    | nil => simp [dotL_nil_right]
    | cons y ys =>
      rw [dotL_cons, ih ys]
      simp only [List.length_cons, Nat.succ_min_succ]
      rw [Finset.sum_range_succ']
      simp [add_comm]

theorem dotL_sq_le (xs ys : List ℚ) :
    dotL xs ys ^ 2 ≤ dotL xs xs * dotL ys ys := by
  have hself : ∀ zs : List ℚ,
      dotL zs zs = ∑ i ∈ Finset.range zs.length, zs.getD i 0 ^ 2 := by
    intro zs
    rw [dotL_eq_sum_range, min_self]
    exact Finset.sum_congr rfl (fun i _ => (sq (zs.getD i 0)).symm
      ▸ by ring)
  rw [dotL_eq_sum_range, hself, hself]
  have cs := Finset.sum_mul_sq_le_sq_mul_sq (Finset.range (min xs.length ys.length))
    (fun i => xs.getD i 0) (fun i => ys.getD i 0)
  refine le_trans cs ?_
  have h1 : ∑ i ∈ Finset.range (min xs.length ys.length), xs.getD i 0 ^ 2 ≤
      ∑ i ∈ Finset.range xs.length, xs.getD i 0 ^ 2 := by
    apply Finset.sum_le_sum_of_subset_of_nonneg
    · exact Finset.range_subset.2 (min_le_left _ _)
    · intro i _ _
      exact sq_nonneg _
  have h2 : ∑ i ∈ Finset.range (min xs.length ys.length), ys.getD i 0 ^ 2 ≤
      ∑ i ∈ Finset.range ys.length, ys.getD i 0 ^ 2 := by
    apply Finset.sum_le_sum_of_subset_of_nonneg
    · exact Finset.range_subset.2 (min_le_right _ _)
    · intro i _ _
      exact sq_nonneg _
  have ha : 0 ≤ ∑ i ∈ Finset.range (min xs.length ys.length), xs.getD i 0 ^ 2 :=
    Finset.sum_nonneg (fun i _ => sq_nonneg _)
  have hb : 0 ≤ ∑ i ∈ Finset.range ys.length, ys.getD i 0 ^ 2 :=
    Finset.sum_nonneg (fun i _ => sq_nonneg _)
  exact mul_le_mul h1 h2 (Finset.sum_nonneg (fun i _ => sq_nonneg _)) (le_trans ha (by linarith [h1]))

theorem covSum_sq_le (xs ys : List ℚ) :
    covSum xs ys ^ 2 ≤ varSum xs * varSum ys :=
  dotL_sq_le (centered xs) (centered ys)

/-- Modelled from the spec: `pearson_correlation` of `app/recommendation.py`
(the module's file is not among the staged sources; its tests are).
Spec 4.1: precondition violations (empty vector, length mismatch) fail with
an `InvalidInput` error (`ValueError`); if either vector has zero variance
the function returns exactly `0.0`; otherwise the standard sample Pearson
coefficient `cov(a,b) / (std(a) * std(b))`.  The sample normalisation
`1/(n-1)` cancels between numerator and denominator, so the value is the
centred-sum quotient below. -/
noncomputable def pearson_correlation (a b : List ℚ) : Except String ℝ :=
  if a = [] ∨ b = [] then Except.error "InvalidInput: empty vector"
  else if a.length ≠ b.length then Except.error "InvalidInput: length mismatch"
  else if varSum a = 0 ∨ varSum b = 0 then Except.ok 0
  else Except.ok (((covSum a b : ℚ) : ℝ) /
    (Real.sqrt ((varSum a : ℚ) : ℝ) * Real.sqrt ((varSum b : ℚ) : ℝ)))

theorem pearson_error_iff (a b : List ℚ) :
    (∃ e, pearson_correlation a b = Except.error e) ↔
      ((a = [] ∧ b = []) ∨ a.length ≠ b.length) := by
  unfold pearson_correlation
  split_ifs with h1 h2 h3
  · constructor
    · intro _
      rcases h1 with rfl | rfl
      · by_cases hb : b = []
        · exact Or.inl ⟨rfl, hb⟩
        · exact Or.inr (by simpa using (List.length_pos.2 hb).ne)
      · by_cases ha : a = []
        · exact Or.inl ⟨ha, rfl⟩
        · exact Or.inr (by simpa using (List.length_pos.2 ha).ne')
    · intro _
      exact ⟨"InvalidInput: empty vector", rfl⟩
  · constructor
    · intro _
      exact Or.inr h2
    · intro _
      exact ⟨"InvalidInput: length mismatch", rfl⟩
  · constructor
    · rintro ⟨e, he⟩
      simp at he
    · rintro (⟨ha, hb⟩ | hne)
      · exact absurd (Or.inl ha) h1
      · exact absurd hne h2
  · constructor
    · rintro ⟨e, he⟩
      simp at he
    · rintro (⟨ha, hb⟩ | hne)
      · exact absurd (Or.inl ha) h1
      · exact absurd hne h2

theorem pearson_const_zero (a b : List ℚ) (ha : a ≠ []) (hb : b ≠ [])
    (hlen : a.length = b.length)
    (hconst : (∃ c, ∀ x ∈ a, x = c) ∨ (∃ c, ∀ x ∈ b, x = c)) :
    pearson_correlation a b = Except.ok 0 := by
  have h1 : ¬ (a = [] ∨ b = []) := by
    rintro (rfl | rfl)
    · exact ha rfl
    · exact hb rfl
  have h3 : varSum a = 0 ∨ varSum b = 0 := by
    rcases hconst with ⟨c, hc⟩ | ⟨c, hc⟩
    · exact Or.inl (varSum_of_const a c ha hc)
    · exact Or.inr (varSum_of_const b c hb hc)
  unfold pearson_correlation
  rw [if_neg h1, if_neg (by simp [hlen]), if_pos h3]

theorem pearson_colinear (a : List ℚ) (k : ℚ)
    (ha : a ≠ []) (hnc : ¬ ∃ c, ∀ x ∈ a, x = c) (hk : k ≠ 0) :
    pearson_correlation a (a.map (fun x => k * x)) =
      Except.ok (if 0 < k then (1 : ℝ) else -1) := by
  have hvA : 0 < varSum a := varSum_pos_of_nonconst a hnc
  have hcov : covSum a (a.map (fun x => k * x)) = k * varSum a := by
    rw [covSum_map_mul_right]
    rfl
  have hvB : varSum (a.map (fun x => k * x)) = k * (k * varSum a) := varSum_map_mul k a
  have h1 : ¬ (a = [] ∨ a.map (fun x => k * x) = []) := by
    rintro (rfl | hmap)
    · exact ha rfl
    · exact map_mul_ne_nil k a ha hmap
  have h2 : ¬ (a.length ≠ (a.map (fun x => k * x)).length) := by
    simp
  have hkk : 0 < k * (k * varSum a) := by
    rw [← mul_assoc]
    exact mul_pos (mul_self_pos.2 hk) hvA
  have h3 : ¬ (varSum a = 0 ∨ varSum (a.map (fun x => k * x)) = 0) := by
    push_neg
    exact ⟨ne_of_gt hvA, by rw [hvB]; exact ne_of_gt hkk⟩
  unfold pearson_correlation
  rw [if_neg h1, if_neg h2, if_neg h3]
  congr 1
  rw [hcov, hvB]
  push_cast
  have hVpos0 : (0 : ℝ) < ((varSum a : ℚ) : ℝ) := by exact_mod_cast hvA
  set V : ℝ := ((varSum a : ℚ) : ℝ) with hV
  have hVpos : 0 < V := hVpos0
  have hsq : Real.sqrt ((k : ℝ) * ((k : ℝ) * V)) = |(k : ℝ)| * Real.sqrt V := by
    rw [show (k : ℝ) * ((k : ℝ) * V) = ((k : ℝ)) ^ 2 * V by ring,
      Real.sqrt_mul (sq_nonneg _), Real.sqrt_sq_eq_abs]
  rw [hsq, show Real.sqrt V * (|(k : ℝ)| * Real.sqrt V) = |(k : ℝ)| * V by
    rw [mul_comm (Real.sqrt V), mul_assoc, Real.mul_self_sqrt hVpos.le]]
  by_cases hk0 : 0 < k
  · rw [if_pos hk0, abs_of_pos (show (0 : ℝ) < (k : ℝ) by exact_mod_cast hk0)]
    exact div_self (by positivity)
  · have hlt : (k : ℝ) < 0 := by
      have : k < 0 := lt_of_le_of_ne (not_lt.1 hk0) hk
      exact_mod_cast this
    have hne : (k : ℝ) * V ≠ 0 := mul_ne_zero (ne_of_lt hlt) (ne_of_gt hVpos)
    rw [if_neg hk0, abs_of_neg hlt, neg_mul, div_neg, div_self hne]

theorem pearson_bounds (a b : List ℚ) (r : ℝ)
    (h : pearson_correlation a b = Except.ok r) : -1 ≤ r ∧ r ≤ 1 := by
  unfold pearson_correlation at h
  split_ifs at h with h1 h2 h3
  · have hr : r = 0 := by
      have := Except.ok.inj h
      exact this.symm
    rw [hr]
    norm_num
  · have hr : r = ((covSum a b : ℚ) : ℝ) /
        (Real.sqrt ((varSum a : ℚ) : ℝ) * Real.sqrt ((varSum b : ℚ) : ℝ)) :=
      (Except.ok.inj h).symm
    push_neg at h3
    have hvA : 0 < varSum a := lt_of_le_of_ne (varSum_nonneg a) (Ne.symm h3.1)
    have hvB : 0 < varSum b := lt_of_le_of_ne (varSum_nonneg b) (Ne.symm h3.2)
    have hA : (0 : ℝ) < ((varSum a : ℚ) : ℝ) := by exact_mod_cast hvA
    have hB : (0 : ℝ) < ((varSum b : ℚ) : ℝ) := by exact_mod_cast hvB
    have hsq : (Real.sqrt ((varSum a : ℚ) : ℝ) * Real.sqrt ((varSum b : ℚ) : ℝ)) ^ 2 =
        ((varSum a : ℚ) : ℝ) * ((varSum b : ℚ) : ℝ) := by
      rw [mul_pow, Real.sq_sqrt hA.le, Real.sq_sqrt hB.le]
    have hr2 : r ^ 2 ≤ 1 := by
      rw [hr, div_pow, hsq, div_le_one (by positivity)]
      exact_mod_cast covSum_sq_le a b
    exact abs_le.1 ((sq_le_one_iff_abs_le_one r).1 hr2)

/-- Modelled from the spec: a candidate handed to the ranker — spec 4.3,
a tuple `(identity, vector, metadata)` whose vector may be absent. -/
structure Candidate (ι μ : Type) where
  id : ι
  vector : Option (List ℚ)
  info : μ

/-- Descending-score comparator: `x` may stand before `y` when
`y.score ≤ x.score`.  Used as the (stable) sort order of the ranker. -/
def descLE {ι σ : Type} [LinearOrder σ] (x y : ι × σ) : Bool :=
  decide (y.2 ≤ x.2)

/-- Modelled from the spec: the per-candidate validation and scoring step of
the ranker — spec 4.3: a candidate whose vector is absent, empty or of a
length different from the target's is silently skipped; otherwise the metric
is applied, and a metric failure (or non-finite value, folded into the
metric's `Option` result) also skips the candidate. -/
def scoredOf {ι μ σ : Type} (target : List ℚ)
    (metric : List ℚ → List ℚ → Option σ) (c : Candidate ι μ) : Option (ι × σ) :=
  c.vector.bind (fun v =>
    if v = [] ∨ v.length ≠ target.length then none
    else (metric target v).map (fun s => (c.id, s)))

/-- The surviving scored candidates, in input order. -/
def scoredCandidates {ι μ σ : Type} (target : List ℚ)
    (cs : List (Candidate ι μ)) (metric : List ℚ → List ℚ → Option σ) :
    List (ι × σ) :=
  cs.filterMap (scoredOf target metric)

/-- The scored candidates sorted by score descending with a stable sort
(ties keep input order, spec 4.3). -/
def rankSorted {ι μ σ : Type} [LinearOrder σ] (target : List ℚ)
    (cs : List (Candidate ι μ)) (metric : List ℚ → List ℚ → Option σ) :
    List (ι × σ) :=
  (scoredCandidates target cs metric).mergeSort descLE

/-- Modelled from the spec: the candidate ranker `rank` — spec 4.3: validate
and score each candidate, sort the survivors by score descending with a
stable sort, truncate to the first `limit` entries. -/
def rank {ι μ σ : Type} [LinearOrder σ] (target : List ℚ)
    (cs : List (Candidate ι μ)) (metric : List ℚ → List ℚ → Option σ)
    (limit : ℕ) : List (ι × σ) :=
  (rankSorted target cs metric).take limit

theorem descLE_trans {ι σ : Type} [LinearOrder σ] (a b c : ι × σ)
    (h1 : descLE a b) (h2 : descLE b c) : descLE a c := by
  simp only [descLE, decide_eq_true_eq] at *
  exact le_trans h2 h1

theorem descLE_total {ι σ : Type} [LinearOrder σ] (a b : ι × σ) :
    descLE a b || descLE b a := by
  simp only [descLE]
  rcases le_total a.2 b.2 with h | h <;> simp [h]

theorem rank_length_le {ι μ σ : Type} [LinearOrder σ] (target : List ℚ)
    (cs : List (Candidate ι μ)) (metric : List ℚ → List ℚ → Option σ)
    (limit : ℕ) : (rank target cs metric limit).length ≤ limit := by
  rw [rank, List.length_take]
  exact min_le_left _ _

theorem rank_mem_valid {ι μ σ : Type} [LinearOrder σ] (target : List ℚ)
    (cs : List (Candidate ι μ)) (metric : List ℚ → List ℚ → Option σ)
    (limit : ℕ) (p : ι × σ) (hp : p ∈ rank target cs metric limit) :
    ∃ c ∈ cs, ∃ v, p.1 = c.id ∧ c.vector = some v ∧ v ≠ [] ∧
      v.length = target.length ∧ metric target v = some p.2 := by
  have hp1 : p ∈ rankSorted target cs metric :=
    (List.take_sublist _ _).mem hp
  have hp2 : p ∈ scoredCandidates target cs metric := by
    rw [rankSorted] at hp1
    exact List.mem_mergeSort.1 hp1
  obtain ⟨c, hc, hsc⟩ := List.mem_filterMap.1 hp2
  refine ⟨c, hc, ?_⟩
  rw [scoredOf] at hsc
  cases hv : c.vector with
  | none =>
    rw [hv] at hsc
    simp at hsc
  | some v =>
    rw [hv, Option.some_bind] at hsc
    by_cases hbad : v = [] ∨ v.length ≠ target.length
    · rw [if_pos hbad] at hsc
      simp at hsc
    · rw [if_neg hbad] at hsc
      push_neg at hbad
      obtain ⟨s, hm, hps⟩ := Option.map_eq_some'.1 hsc
      subst hps
      exact ⟨v, rfl, rfl, hbad.1, hbad.2, hm⟩

theorem rankSorted_perm {ι μ σ : Type} [LinearOrder σ] (target : List ℚ)
    (cs : List (Candidate ι μ)) (metric : List ℚ → List ℚ → Option σ) :
    (rankSorted target cs metric).Perm (scoredCandidates target cs metric) :=
  List.mergeSort_perm _ _

theorem rankSorted_pairwise {ι μ σ : Type} [LinearOrder σ] (target : List ℚ)
    (cs : List (Candidate ι μ)) (metric : List ℚ → List ℚ → Option σ) :
    (rankSorted target cs metric).Pairwise (fun x y => y.2 ≤ x.2) := by
  have h := List.sorted_mergeSort
    (fun a b c => descLE_trans (ι := ι) (σ := σ) a b c)
    (fun a b => descLE_total (ι := ι) (σ := σ) a b)
    (scoredCandidates target cs metric)
  exact h.imp (fun hab => by simpa [descLE, decide_eq_true_eq] using hab)

theorem rank_pairwise {ι μ σ : Type} [LinearOrder σ] (target : List ℚ)
    (cs : List (Candidate ι μ)) (metric : List ℚ → List ℚ → Option σ)
    (limit : ℕ) :
    (rank target cs metric limit).Pairwise (fun x y => y.2 ≤ x.2) :=
  (rankSorted_pairwise target cs metric).sublist (List.take_sublist _ _)

theorem rankSorted_stable {ι μ σ : Type} [LinearOrder σ] (target : List ℚ)
    (cs : List (Candidate ι μ)) (metric : List ℚ → List ℚ → Option σ)
    (x y : ι × σ) (hsub : [x, y].Sublist (scoredCandidates target cs metric))
    (htie : x.2 = y.2) :
    [x, y].Sublist (rankSorted target cs metric) := by
  apply List.sublist_mergeSort
    (fun a b c => descLE_trans a b c) (fun a b => descLE_total a b)
  · exact List.pairwise_pair.2 (by simp [descLE, htie])
  · exact hsub

/-- Modelled from the spec: a candidate row of the people-you-may-know store
query (`id`, `name`, optional `features`), as `app/recommendation.py` reads
it (the module's file is not among the staged sources; its tests are). -/
structure PymkRecord where
  id : ℤ
  name : String
  features : Option (List ℚ)

/-- Modelled from the spec: `get_people_you_may_know` of
`app/recommendation.py` — spec 4.4: fetch the target user's raw feature
vector (if absent, return an empty RankedList), then run the candidate rows
through the Ranker with Pearson correlation as the metric (a metric failure
skips the candidate). -/
noncomputable def get_people_you_may_know (userFeatures : Option (List ℚ))
    (cands : List PymkRecord) (limit : ℕ) : List ((ℤ × String) × ℝ) :=
  match userFeatures with
  | none => []
  | some target =>
    rank target (cands.map (fun c => ⟨(c.id, c.name), c.features, ()⟩))
      (fun t v => (pearson_correlation t v).toOption) limit

/-- Modelled from the spec: a candidate job row of the job-recommendation
store query, as `app/recommendation.py` reads it. -/
structure JobRecord where
  job_id : String
  title : String
  company : Option String
  location : Option String
  job_posting_url : Option String
  normalized_salary : Option ℚ
  embedding : Option (List ℚ)

/-- A scored job result tuple `(job_id, title, company, location,
normalized_salary, score)`. -/
structure ScoredJob where
  job_id : String
  title : String
  company : Option String
  location : Option String
  normalized_salary : Option ℚ
  score : ℝ

/-- Modelled from the spec: the inline cosine similarity of the job-ranking
path — spec 4.1: `dot(a,b) / (norm(a) * norm(b))`. -/
noncomputable def cosineSim (a b : List ℚ) : ℝ :=
  ((dotL a b : ℚ) : ℝ) /
    (Real.sqrt ((dotL a a : ℚ) : ℝ) * Real.sqrt ((dotL b b : ℚ) : ℝ))

/-- Modelled from the spec: the per-job validation and scoring step of the
job path — spec 4.1/4.4: the cosine is computed only when the candidate
embedding is present, non-empty, of the user's length, and both norms are
strictly positive; any violation, or a similarity of exactly zero, excludes
the job entirely. -/
noncomputable def scoredJobOf (u : List ℚ) (j : JobRecord) : Option ScoredJob :=
  j.embedding.bind (fun v =>
    if v = [] ∨ v.length ≠ u.length ∨ ¬ (0 < dotL u u) ∨ ¬ (0 < dotL v v)
    then none
    else if cosineSim u v = 0 then none
    else some ⟨j.job_id, j.title, j.company, j.location,
      j.normalized_salary, cosineSim u v⟩)

/-- Modelled from the spec: `get_job_recommendations` of
`app/recommendation.py` — spec 4.4: if the user's embedding is absent or
empty, return an empty RankedList; otherwise score the candidate jobs with
`scoredJobOf`, sort the survivors by score descending (stable) and truncate
to `limit`. -/
noncomputable def get_job_recommendations (userEmbedding : Option (List ℚ))
    (jobs : List JobRecord) (limit : ℕ) : List ScoredJob :=
  match userEmbedding with
  | none => []
  | some u =>
    if u = [] then []
    else
      ((jobs.filterMap (scoredJobOf u)).mergeSort
        (fun x y => decide (y.score ≤ x.score))).take limit

/-- Modelled from the spec: a row of the friend-recommendation store query
(`id`, `name`, `mutuals`), already ordered by mutual-friend count by the
store. -/
structure FriendRecord where
  id : ℤ
  name : String
  mutuals : ℕ

/-- Modelled from the spec: `get_friend_recommendations` of
`app/recommendation.py` — spec 4.4: the orchestrator does not re-rank; it
trusts the store's ordering and shapes each row into a
`(identity, name, score)` tuple whose score is the mutual-friend count. -/
def get_friend_recommendations (records : List FriendRecord) :
    List (ℤ × String × ℕ) :=
  records.map (fun r => (r.id, r.name, r.mutuals))

/-- Modelled from the spec: the `recommend_friends` endpoint of
`app/main.py` (that caller's file is not among the staged sources; its tests
are) — an empty recommendation list is reported to the client as a
not-found outcome (HTTP 404). -/
def recommend_friends (records : List FriendRecord) :
    Except ℕ (List (ℤ × String × ℕ)) :=
  if get_friend_recommendations records = [] then Except.error 404
  else Except.ok (get_friend_recommendations records)

/-- Modelled from the spec: `get_friend_counts` of `app/recommendation.py`
— spec 4.4: two independent scalar counts fetched from the store; a count
query that returns no record contributes `0` (tests
`test_get_friend_counts` and `test_get_friend_counts_no_results`). -/
def get_friend_counts (direct fof : Option ℕ) : ℕ × ℕ :=
  (direct.getD 0, fof.getD 0)

/-- Dimensionality of the job embeddings (`app/embedding.py`, line 20). -/
def JOB_EMBED_DIM : ℕ := 384

/-- Sum of squares of a real vector. -/
def sumSq (l : List ℝ) : ℝ :=
  (l.map (fun x => x * x)).sum

/-- Euclidean (L2) norm of a real vector (`np.linalg.norm`). -/
noncomputable def euclNorm (l : List ℝ) : ℝ :=
  Real.sqrt (sumSq l)

/-- A rational vector viewed in `ℝ`. -/
noncomputable def toRealVec (v : List ℚ) : List ℝ :=
  v.map (fun x : ℚ => (x : ℝ))

/-- Euclidean norm of a rational vector. -/
noncomputable def ratNorm (v : List ℚ) : ℝ :=
  euclNorm (toRealVec v)

/-- The L2-normalization step of `app/embedding.py` (lines 50-52): divide by
the Euclidean norm when it is strictly positive, otherwise keep the raw
vector. -/
noncomputable def normalizeStep (features : List ℚ) : List ℝ :=
  if 0 < ratNorm features
  then (toRealVec features).map (fun x => x / ratNorm features)
  else toRealVec features

/-- `project_features_to_embedding` of `app/embedding.py` (lines 23-59):
convert the features to an array; an empty input yields `dim` zeros;
otherwise L2-normalize when the norm is strictly positive, then truncate to
`dim` when at least `dim` long, else right-pad with zeros to length `dim`. -/
noncomputable def project_features_to_embedding (features : List ℚ)
    (dim : ℕ := JOB_EMBED_DIM) : List ℝ :=
  if features.length = 0 then List.replicate dim 0
  else
    let vec : List ℝ := normalizeStep features
    if dim ≤ vec.length then vec.take dim
    else vec ++ List.replicate (dim - vec.length) 0

theorem sumSq_toRealVec (v : List ℚ) :
    sumSq (toRealVec v) = ((dotL v v : ℚ) : ℝ) := by
  induction v with
  | nil => simp [sumSq, toRealVec, dotL]
  | cons x xs ih =>
    simp only [toRealVec, List.map_cons, sumSq, List.sum_cons] at ih ⊢
    rw [dotL_cons]
    push_cast
    rw [ih]

theorem sumSq_nonneg (l : List ℝ) : 0 ≤ sumSq l := by
  apply List.sum_nonneg
  intro x hx
  obtain ⟨y, _, rfl⟩ := List.mem_map.1 hx
  exact mul_self_nonneg y

theorem ratNorm_pos_iff (v : List ℚ) : 0 < ratNorm v ↔ 0 < dotL v v := by
  rw [ratNorm, euclNorm, sumSq_toRealVec, Real.sqrt_pos]
  exact_mod_cast Iff.rfl

theorem sumSq_append (l1 l2 : List ℝ) :
    sumSq (l1 ++ l2) = sumSq l1 + sumSq l2 := by
  simp [sumSq]

theorem sumSq_replicate_zero (n : ℕ) : sumSq (List.replicate n 0) = 0 := by
  simp [sumSq, List.map_replicate, List.sum_replicate]

theorem sumSq_map_div (l : List ℝ) (c : ℝ) :
    sumSq (l.map (fun x => x / c)) = sumSq l / (c * c) := by
  induction l with
  | nil => simp [sumSq]
  | cons x xs ih =>
    simp only [List.map_cons, sumSq, List.sum_cons] at ih ⊢
    rw [ih, add_div]
    congr 1
    rw [div_mul_div_comm]

theorem normalizeStep_length (features : List ℚ) :
    (normalizeStep features).length = features.length := by
  rw [normalizeStep]
  split_ifs <;> simp [toRealVec]

theorem project_length (features : List ℚ) (dim : ℕ) :
    (project_features_to_embedding features dim).length = dim := by
  rw [project_features_to_embedding]
  by_cases h0 : features.length = 0
  · rw [if_pos h0, List.length_replicate]
  · rw [if_neg h0]
    by_cases hd : dim ≤ (normalizeStep features).length
    · simp only [if_pos hd, List.length_take]
      omega
    · simp only [if_neg hd, List.length_append, List.length_replicate]
      omega

theorem project_empty (dim : ℕ) :
    project_features_to_embedding [] dim = List.replicate dim 0 := by
  rw [project_features_to_embedding]
  simp

theorem project_pad (features : List ℚ) (dim : ℕ) (h0 : features ≠ [])
    (hlt : features.length < dim) :
    project_features_to_embedding features dim =
      normalizeStep features ++
        List.replicate (dim - features.length) 0 := by
  rw [project_features_to_embedding]
  have hne : features.length ≠ 0 := by
    intro h
    exact h0 (List.length_eq_zero.1 h)
  rw [if_neg hne]
  have hd : ¬ dim ≤ features.length := by
    omega
  simp only [normalizeStep_length]
  rw [if_neg hd]

theorem sumSq_normalizeStep (features : List ℚ) (hpos : 0 < ratNorm features) :
    sumSq (normalizeStep features) = 1 := by
  rw [normalizeStep, if_pos hpos, sumSq_map_div]
  have hS : ratNorm features * ratNorm features = sumSq (toRealVec features) := by
    rw [ratNorm, euclNorm]
    exact Real.mul_self_sqrt (sumSq_nonneg _)
  rw [hS, div_self]
  have : 0 < sumSq (toRealVec features) := by
    rw [← hS]
    exact mul_pos hpos hpos
  exact ne_of_gt this

theorem project_norm_one (features : List ℚ) (dim : ℕ) (h0 : features ≠ [])
    (hpos : 0 < ratNorm features) (hle : features.length ≤ dim) :
    euclNorm (project_features_to_embedding features dim) = 1 := by
  rcases lt_or_eq_of_le hle with hlt | heq
  · rw [project_pad features dim h0 hlt, euclNorm, sumSq_append,
      sumSq_replicate_zero, add_zero, sumSq_normalizeStep features hpos,
      Real.sqrt_one]
  · rw [project_features_to_embedding]
    have hne : features.length ≠ 0 := by
      intro h
      exact h0 (List.length_eq_zero.1 h)
    rw [if_neg hne]
    have hd : dim ≤ (normalizeStep features).length := by
      rw [normalizeStep_length]
      omega
    simp only [if_pos hd]
    have htake : (normalizeStep features).take dim = normalizeStep features := by
      apply List.take_of_length_le
      rw [normalizeStep_length]
      omega
    rw [htake, euclNorm, sumSq_normalizeStep features hpos, Real.sqrt_one]

theorem dotL_34 : dotL [3, 4] [3, 4] = 25 := by
  norm_num [dotL]

theorem ratNorm_34 : ratNorm [3, 4] = 5 := by
  rw [ratNorm, euclNorm, sumSq_toRealVec, dotL_34,
    show ((25 : ℚ) : ℝ) = 5 ^ 2 by norm_num,
    Real.sqrt_sq (by norm_num : (0 : ℝ) ≤ 5)]

theorem normalizeStep_34 : normalizeStep [3, 4] = [3 / 5, 4 / 5] := by
  rw [normalizeStep, if_pos (by rw [ratNorm_34]; norm_num), ratNorm_34]
  simp [toRealVec]

theorem project_34_2 :
    project_features_to_embedding [3, 4] 2 = [3 / 5, 4 / 5] := by
  rw [project_features_to_embedding]
  rw [if_neg (by norm_num)]
  simp [normalizeStep_34]

theorem project_34_1 :
    project_features_to_embedding [3, 4] 1 = [3 / 5] := by
  rw [project_features_to_embedding]
  rw [if_neg (by norm_num)]
  simp [normalizeStep_34]

theorem euclNorm_individual : euclNorm [(3 : ℝ) / 5] = 3 / 5 := by
  rw [euclNorm, sumSq]
  rw [show ([(3 : ℝ) / 5].map (fun x => x * x)).sum = (3 / 5) ^ 2 by simp; ring]
  rw [Real.sqrt_sq (by norm_num)]

theorem nonconst_12 : ¬ ∃ c, ∀ x ∈ ([1, 2] : List ℚ), x = c := by
  rintro ⟨c, hc⟩
  have h1 := hc 1 (by simp)
  have h2 := hc 2 (by simp)
  rw [← h1] at h2
  norm_num at h2

theorem pearson_12_24 : pearson_correlation [1, 2] [2, 4] = Except.ok 1 := by
  have h : ([2, 4] : List ℚ) = [1, 2].map (fun x => 2 * x) := by norm_num
  rw [h, pearson_colinear [1, 2] 2 (by simp) nonconst_12 (by norm_num)]
  norm_num

theorem pearson_12_36 : pearson_correlation [1, 2] [3, 6] = Except.ok 1 := by
  have h : ([3, 6] : List ℚ) = [1, 2].map (fun x => 3 * x) := by norm_num
  rw [h, pearson_colinear [1, 2] 3 (by simp) nonconst_12 (by norm_num)]
  norm_num

theorem scoredOf_bob :
    scoredOf (μ := Unit) (σ := ℝ) [1, 2]
      (fun t v => (pearson_correlation t v).toOption)
      ⟨(2, "Bob"), some [2, 4], ()⟩ = some (((2 : ℤ), "Bob"), (1 : ℝ)) := by
  rw [scoredOf]
  simp only [Option.some_bind]
  rw [if_neg (by simp)]
  rw [pearson_12_24]
  rfl

theorem scoredOf_carol :
    scoredOf (μ := Unit) (σ := ℝ) [1, 2]
      (fun t v => (pearson_correlation t v).toOption)
      ⟨(3, "Carol"), some [3, 6], ()⟩ = some (((3 : ℤ), "Carol"), (1 : ℝ)) := by
  rw [scoredOf]
  simp only [Option.some_bind]
  rw [if_neg (by simp)]
  rw [pearson_12_36]
  rfl

theorem pymk_tie_eval :
    get_people_you_may_know (some [1, 2])
      [⟨2, "Bob", some [2, 4]⟩, ⟨3, "Carol", some [3, 6]⟩] 10 =
      [(((2 : ℤ), "Bob"), (1 : ℝ)), (((3 : ℤ), "Carol"), (1 : ℝ))] := by
  show rank [1, 2]
      [⟨((2 : ℤ), "Bob"), some [2, 4], ()⟩, ⟨((3 : ℤ), "Carol"), some [3, 6], ()⟩]
      (fun t v => (pearson_correlation t v).toOption) 10 = _
  rw [rank, rankSorted, scoredCandidates,
    List.filterMap_cons_some scoredOf_bob,
    List.filterMap_cons_some scoredOf_carol, List.filterMap_nil,
    List.mergeSort_of_sorted
      (List.pairwise_pair.2 (decide_eq_true (le_refl (1 : ℝ))))]
  simp

theorem cosine_100_100 : cosineSim [1, 0, 0] [1, 0, 0] = 1 := by
  rw [cosineSim]
  rw [show dotL [1, 0, 0] [1, 0, 0] = 1 by norm_num [dotL]]
  norm_num

theorem cosine_100_010 : cosineSim [1, 0, 0] [0, 1, 0] = 0 := by
  rw [cosineSim]
  rw [show dotL [1, 0, 0] [0, 1, 0] = 0 by norm_num [dotL]]
  norm_num

theorem scoredJobOf_job1 :
    scoredJobOf [1, 0, 0]
      ⟨"job1", "Engineer", some "Google", some "Paris", none, some 100000,
        some [1, 0, 0]⟩ =
      some ⟨"job1", "Engineer", some "Google", some "Paris", some 100000,
        (1 : ℝ)⟩ := by
  rw [scoredJobOf]
  simp only [Option.some_bind]
  rw [if_neg (by simp [dotL])]
  rw [if_neg (by rw [cosine_100_100]; norm_num)]
  rw [cosine_100_100]

theorem scoredJobOf_job2 :
    scoredJobOf [1, 0, 0]
      ⟨"job2", "Developer", some "Microsoft", none, none, none,
        some [0, 1, 0]⟩ = none := by
  rw [scoredJobOf]
  simp only [Option.some_bind]
  rw [if_neg (by simp [dotL])]
  rw [if_pos cosine_100_010]

theorem job_recs_example :
    get_job_recommendations (some [1, 0, 0])
      [⟨"job1", "Engineer", some "Google", some "Paris", none, some 100000,
          some [1, 0, 0]⟩,
        ⟨"job2", "Developer", some "Microsoft", none, none, none,
          some [0, 1, 0]⟩] 10 =
      [⟨"job1", "Engineer", some "Google", some "Paris", some 100000,
        (1 : ℝ)⟩] := by
  show (if ([1, 0, 0] : List ℚ) = [] then []
      else ((List.filterMap (scoredJobOf [1, 0, 0])
          [⟨"job1", "Engineer", some "Google", some "Paris", none, some 100000,
              some [1, 0, 0]⟩,
            ⟨"job2", "Developer", some "Microsoft", none, none, none,
              some [0, 1, 0]⟩]).mergeSort
        (fun x y => decide (y.score ≤ x.score))).take 10) = _
  rw [if_neg (by simp),
    List.filterMap_cons_some scoredJobOf_job1,
    List.filterMap_cons_none scoredJobOf_job2, List.filterMap_nil,
    List.mergeSort_singleton]
  rfl

theorem job_recs_none (jobs : List JobRecord) (limit : ℕ) :
    get_job_recommendations none jobs limit = [] := rfl

theorem job_recs_empty_user (jobs : List JobRecord) (limit : ℕ) :
    get_job_recommendations (some []) jobs limit = [] := by
  show (if ([] : List ℚ) = [] then []
      else ((jobs.filterMap (scoredJobOf [])).mergeSort
        (fun x y => decide (y.score ≤ x.score))).take limit) = []
  rw [if_pos rfl]

theorem job_recs_mem (u : List ℚ) (jobs : List JobRecord) (limit : ℕ)
    (s : ScoredJob) (hs : s ∈ get_job_recommendations (some u) jobs limit) :
    ∃ j ∈ jobs, ∃ v, s.job_id = j.job_id ∧ j.embedding = some v ∧ v ≠ [] ∧
      v.length = u.length ∧ 0 < dotL u u ∧ 0 < dotL v v ∧
      s.score = cosineSim u v ∧ cosineSim u v ≠ 0 := by
  have heq : get_job_recommendations (some u) jobs limit =
      if u = [] then []
      else ((jobs.filterMap (scoredJobOf u)).mergeSort
        (fun x y => decide (y.score ≤ x.score))).take limit := rfl
  rw [heq] at hs
  by_cases hu : u = []
  · rw [if_pos hu] at hs
    simp at hs
  · rw [if_neg hu] at hs
    have hs1 := (List.take_sublist _ _).mem hs
    have hs2 := List.mem_mergeSort.1 hs1
    obtain ⟨j, hj, hsj⟩ := List.mem_filterMap.1 hs2
    refine ⟨j, hj, ?_⟩
    rw [scoredJobOf] at hsj
    cases hv : j.embedding with
    | none =>
      rw [hv] at hsj
      simp at hsj
    | some v =>
      rw [hv, Option.some_bind] at hsj
      by_cases hbad : v = [] ∨ v.length ≠ u.length ∨ ¬ (0 < dotL u u) ∨
          ¬ (0 < dotL v v)
      · rw [if_pos hbad] at hsj
        simp at hsj
      · rw [if_neg hbad] at hsj
        by_cases hz : cosineSim u v = 0
        · rw [if_pos hz] at hsj
          simp at hsj
        · rw [if_neg hz] at hsj
          push_neg at hbad
          obtain ⟨hb1, hb2, hb3, hb4⟩ := hbad
          have hss := Option.some.inj hsj
          subst hss
          exact ⟨v, rfl, rfl, hb1, hb2, hb3, hb4, rfl, hz⟩

theorem pymk_nonincreasing (userFeatures : Option (List ℚ))
    (cands : List PymkRecord) (limit : ℕ) :
    (get_people_you_may_know userFeatures cands limit).Chain'
      (fun x y => y.2 ≤ x.2) := by
  cases userFeatures with
  | none => exact List.chain'_nil
  | some target =>
    exact (rank_pairwise target
      (cands.map (fun c => ⟨(c.id, c.name), c.features, ()⟩))
      (fun t v => (pearson_correlation t v).toOption) limit).chain'

/-- C1: for every target vector, candidate sequence, metric and positive
limit, `rank` returns at most `limit` entries; every returned entry stems
from a candidate whose vector is present, non-empty and of the target's
length (and was accepted by the metric); the output is sorted non-increasing
by score; exact ties keep their relative order from the input (stable sort,
no secondary key); and the output is exactly the truncation of the stable
descending sort of the surviving candidates. -/
theorem rank_limit_filter_sorted_stable {ι μ σ : Type} [LinearOrder σ]
    (target : List ℚ) (cs : List (Candidate ι μ))
    (metric : List ℚ → List ℚ → Option σ) (limit : ℕ) (_hpos : 0 < limit) :
    (rank target cs metric limit).length ≤ limit ∧
    (∀ p ∈ rank target cs metric limit, ∃ c ∈ cs, ∃ v, p.1 = c.id ∧
      c.vector = some v ∧ v ≠ [] ∧ v.length = target.length ∧
      metric target v = some p.2) ∧
    (rank target cs metric limit).Pairwise (fun x y => y.2 ≤ x.2) ∧
    (∀ x y, [x, y].Sublist (scoredCandidates target cs metric) → x.2 = y.2 →
      [x, y].Sublist (rankSorted target cs metric)) ∧
    rank target cs metric limit = (rankSorted target cs metric).take limit :=
  ⟨rank_length_le target cs metric limit,
    fun p hp => rank_mem_valid target cs metric limit p hp,
    rank_pairwise target cs metric limit,
    fun x y hs ht => rankSorted_stable target cs metric x y hs ht,
    rfl⟩

/-- Concrete candidate list used by the C1 witness. -/
def rankWitnessCands : List (Candidate ℕ Unit) :=
  [⟨1, some [1, 0], ()⟩, ⟨2, none, ()⟩, ⟨3, some [0, 1], ()⟩]

/-- Witness for C1 at a concrete input (limit 2 is positive). -/
theorem rank_limit_filter_sorted_stable_witness :
    (rank [1, 1] rankWitnessCands (fun t v => some (dotL t v)) 2).length ≤ 2 :=
  (rank_limit_filter_sorted_stable [1, 1] rankWitnessCands
    (fun t v => some (dotL t v)) 2 (by norm_num)).1

/-- C2: in `get_job_recommendations`, a missing or empty user embedding
yields the empty list; every returned entry stems from a job whose embedding
is present, non-empty, of the user's length, with both norms strictly
positive and a cosine similarity that is not zero (so zero-similarity or
unscoreable jobs are excluded entirely); and on the end-to-end example
(target `[1,0,0]`, job1 `[1,0,0]`, job2 `[0,1,0]`, limit 10) only job1 is
returned, with score exactly 1. -/
theorem job_recommendations_exclusion :
    (∀ (jobs : List JobRecord) (limit : ℕ),
      get_job_recommendations none jobs limit = []) ∧
    (∀ (jobs : List JobRecord) (limit : ℕ),
      get_job_recommendations (some []) jobs limit = []) ∧
    (∀ (u : List ℚ) (jobs : List JobRecord) (limit : ℕ) (s : ScoredJob),
      s ∈ get_job_recommendations (some u) jobs limit →
      ∃ j ∈ jobs, ∃ v, s.job_id = j.job_id ∧ j.embedding = some v ∧ v ≠ [] ∧
        v.length = u.length ∧ 0 < dotL u u ∧ 0 < dotL v v ∧
        s.score = cosineSim u v ∧ cosineSim u v ≠ 0) ∧
    get_job_recommendations (some [1, 0, 0])
      [⟨"job1", "Engineer", some "Google", some "Paris", none, some 100000,
          some [1, 0, 0]⟩,
        ⟨"job2", "Developer", some "Microsoft", none, none, none,
          some [0, 1, 0]⟩] 10 =
      [⟨"job1", "Engineer", some "Google", some "Paris", some 100000,
        (1 : ℝ)⟩] :=
  ⟨job_recs_none, job_recs_empty_user, job_recs_mem, job_recs_example⟩

/-- C3: on a pair of non-empty, equal-length vectors at least one of which
is constant (zero variance), `pearson_correlation` returns exactly `0`; it
does not fail (no `Except.error`), and in this exact-real model the value
`0` is a finite real (no NaN or infinity exists in `ℝ`). -/
theorem pearson_zero_variance_returns_zero (a b : List ℚ)
    (ha : a ≠ []) (hb : b ≠ []) (hlen : a.length = b.length)
    (hconst : (∃ c, ∀ x ∈ a, x = c) ∨ (∃ c, ∀ x ∈ b, x = c)) :
    pearson_correlation a b = Except.ok 0 :=
  pearson_const_zero a b ha hb hlen hconst

/-- Witness for C3 at the test's concrete input `[1,1,1,1]`, `[1,2,3,4]`. -/
theorem pearson_zero_variance_returns_zero_witness :
    pearson_correlation [1, 1, 1, 1] [1, 2, 3, 4] = Except.ok 0 :=
  pearson_zero_variance_returns_zero [1, 1, 1, 1] [1, 2, 3, 4]
    (by simp) (by simp) (by simp) (Or.inl ⟨1, by decide⟩)

/-- C4: `pearson_correlation` fails with a distinguishable `InvalidInput`
error exactly when its two input vectors are empty or of unequal length; on
such inputs it returns no sentinel value (the result is an `Except.error`),
and on non-empty equal-length inputs it never fails. -/
theorem pearson_invalid_input_iff (a b : List ℚ) :
    (∃ e, pearson_correlation a b = Except.error e) ↔
      ((a = [] ∧ b = []) ∨ a.length ≠ b.length) :=
  pearson_error_iff a b

/-- C5: `project_features_to_embedding` always returns a list of length
exactly `dim`; the empty input yields `dim` zeros; a non-empty input shorter
than `dim` is right-padded with zeros after the normalization step. -/
theorem project_length_and_padding (features : List ℚ) (dim : ℕ) :
    (project_features_to_embedding features dim).length = dim ∧
    (features = [] → project_features_to_embedding features dim =
      List.replicate dim 0) ∧
    (features ≠ [] → features.length < dim →
      project_features_to_embedding features dim =
        normalizeStep features ++ List.replicate (dim - features.length) 0) := by
  refine ⟨project_length features dim, ?_, project_pad features dim⟩
  intro h
  subst h
  exact project_empty dim

/-- Counterexample to C6 as stated: the input `[3, 4]` is non-empty and has
strictly positive Euclidean norm, yet with `dim = 1` the returned vector is
`[3/5]` (truncation happens after normalization) whose Euclidean norm is
`3/5`, not `1`. -/
theorem project_norm_one_counterexample :
    ([3, 4] : List ℚ) ≠ [] ∧ 0 < ratNorm [3, 4] ∧
    project_features_to_embedding [3, 4] 1 = [3 / 5] ∧
    euclNorm (project_features_to_embedding [3, 4] 1) ≠ 1 := by
  refine ⟨by simp, by rw [ratNorm_34]; norm_num, project_34_1, ?_⟩
  rw [project_34_1, euclNorm_individual]
  norm_num

/-- C6 (amended): for a non-empty input with strictly positive Euclidean
norm whose length does not exceed `dim` (so truncation drops nothing), the
returned vector has Euclidean norm exactly `1`; `project [3,4] 2` is
`[0.6, 0.8]`; and for a non-empty input of zero norm the normalization step
is skipped and the raw vector is used. -/
theorem project_l2_normalized_amended :
    (∀ (features : List ℚ) (dim : ℕ), features ≠ [] →
      0 < ratNorm features → features.length ≤ dim →
      euclNorm (project_features_to_embedding features dim) = 1) ∧
    project_features_to_embedding [3, 4] 2 = [3 / 5, 4 / 5] ∧
    (∀ features : List ℚ, ¬ 0 < ratNorm features →
      normalizeStep features = toRealVec features) := by
  refine ⟨project_norm_one, project_34_2, ?_⟩
  intro features h
  rw [normalizeStep, if_neg h]

/-- Counterexample to C7 as stated: two candidates whose feature vectors are
both positive multiples of the target's tie at Pearson score `1`; the stable
sort keeps both, so the returned list `[Bob: 1, Carol: 1]` is not strictly
descending (the consecutive scores are equal, not `>`). -/
theorem ranked_list_strictly_descending_counterexample :
    get_people_you_may_know (some [1, 2])
      [⟨2, "Bob", some [2, 4]⟩, ⟨3, "Carol", some [3, 6]⟩] 10 =
      [(((2 : ℤ), "Bob"), (1 : ℝ)), (((3 : ℤ), "Carol"), (1 : ℝ))] ∧
    ¬ (get_people_you_may_know (some [1, 2])
      [⟨2, "Bob", some [2, 4]⟩, ⟨3, "Carol", some [3, 6]⟩] 10).Chain'
        (fun x y => y.2 < x.2) := by
  refine ⟨pymk_tie_eval, ?_⟩
  rw [pymk_tie_eval]
  simp [List.chain'_cons]

/-- C7 (amended): every RankedList produced by the engine is sorted
non-increasing by score — for every two consecutive entries the earlier
score is greater than or equal to the later one (strict descent fails
exactly when scores tie, which the stable sort preserves). -/
theorem ranked_list_nonincreasing (userFeatures : Option (List ℚ))
    (cands : List PymkRecord) (limit : ℕ) :
    (get_people_you_may_know userFeatures cands limit).Chain'
      (fun x y => y.2 ≤ x.2) :=
  pymk_nonincreasing userFeatures cands limit

/-- C8: for every non-empty non-constant vector `a` and scalar `k ≠ 0`,
`pearson_correlation a (k · a)` is exactly `1` when `k > 0` and exactly
`-1` when `k < 0`; and every value the function returns lies in `[-1, 1]`. -/
theorem pearson_colinear_and_range :
    (∀ (a : List ℚ) (k : ℚ), a ≠ [] → (¬ ∃ c, ∀ x ∈ a, x = c) → k ≠ 0 →
      pearson_correlation a (a.map (fun x => k * x)) =
        Except.ok (if 0 < k then (1 : ℝ) else -1)) ∧
    (∀ (a b : List ℚ) (r : ℝ), pearson_correlation a b = Except.ok r →
      -1 ≤ r ∧ r ≤ 1) :=
  ⟨pearson_colinear, pearson_bounds⟩

/-- C9: `get_friend_recommendations` returns one `(id, name, mutuals)` tuple
per store record, in the store's order (entry `i` of the output is shaped
from record `i`), with the mutual-friend count as score; and its caller
reports a not-found outcome (HTTP 404) exactly when the store returned zero
candidates. -/
theorem friend_recommendations_passthrough (records : List FriendRecord) :
    (get_friend_recommendations records).length = records.length ∧
    (∀ i : ℕ, (get_friend_recommendations records)[i]? =
      (records[i]?).map (fun r => (r.id, r.name, r.mutuals))) ∧
    (recommend_friends records = Except.error 404 ↔ records = []) := by
  refine ⟨List.length_map records _, fun i => List.getElem?_map _ records i, ?_⟩
  rw [recommend_friends]
  constructor
  · intro h
    by_cases hrec : get_friend_recommendations records = []
    · exact List.map_eq_nil_iff.1 hrec
    · rw [if_neg hrec] at h
      exact absurd h (by simp)
  · intro h
    subst h
    rw [if_pos (show get_friend_recommendations [] = [] from rfl)]

/-- C10: `get_friend_counts` never fails on missing data — a count query
that returned no record contributes `0`, so two missing records yield
`(0, 0)`, and present records pass their counts through unchanged. -/
theorem friend_counts_default_zero :
    (∀ direct fof : Option ℕ,
      get_friend_counts direct fof = (direct.getD 0, fof.getD 0)) ∧
    get_friend_counts none none = (0, 0) ∧
    (∀ x y : ℕ, get_friend_counts (some x) (some y) = (x, y)) :=
  ⟨fun _ _ => rfl, rfl, fun _ _ => rfl⟩
